import Mathlib

/-!
Verification of the Popmerch Ecwid variant-availability engine.

The definitions below are shallow embeddings of the JavaScript sources:
JS Map objects become insertion-ordered association lists, DOM radio
inputs become a list of Control records, and fallible asynchronous code
becomes total functions over an explicit outcome type.
-/

set_option maxHeartbeats 1000000

namespace Popmerch

/-- Lookup in a JS Map modelled as an insertion-ordered association list. -/
def mapGet {α : Type} : List (String × α) → String → Option α
  | [], _ => none
  | (k, v) :: rest, k0 => if k = k0 then some v else mapGet rest k0

/-- JS Map.set: replace the value of an existing key in place, otherwise
append the new key at the end (insertion order). -/
def mapSet {α : Type} : List (String × α) → String → α → List (String × α)
  | [], k, v => [(k, v)]
  | (k1, v1) :: rest, k, v =>
    if k1 = k then (k, v) :: rest else (k1, v1) :: mapSet rest k v

/-- One entry of a combination record's options array; both fields may be
absent (undefined) in the raw API payload. -/
structure OptionPair where
  name : Option String
  value : Option String
deriving DecidableEq

/-- One combination record as returned by the Ecwid combinations endpoint.
Fields are optional: an absent field behaves as undefined in the JS code. -/
structure CombinationRecord where
  unlimited : Option Bool
  quantity : Option Int
  inStock : Option Bool
  options : Option (List OptionPair)
deriving DecidableEq

/-- Inner availability map: option value to in-stock boolean. -/
abbrev ValMap := List (String × Bool)

/-- Outer availability map: option name to inner map. -/
abbrev AvailMap := List (String × ValMap)

/-- The stock signal of a combination, from custom-popmerch.js line 103:
unlimited === true, or quantity > 0, or inStock === true; comparisons
against an absent field are false. -/
def stockSignal (c : CombinationRecord) : Bool :=
  c.unlimited == some true
    || (match c.quantity with
        | some q => decide (0 < q)
        | none => false)
    || c.inStock == some true

/-- Value-level merge of the module-level buildAvailabilityMap
(custom-popmerch.js lines 118-123): keep an existing in-stock mark, OR the
new signal in; a fresh value key starts at the signal. -/
def mergeValue (inStock : Bool) (vm : ValMap) (v : String) : ValMap :=
  match mapGet vm v with
  | some b => mapSet vm v (b || inStock)
  | none => mapSet vm v inStock

/-- Body of the inner option loop of the module-level buildAvailabilityMap
(custom-popmerch.js lines 106-124): a falsy (absent or empty) name or value
is skipped; otherwise the stock signal is OR-merged into the entry. -/
def processOption (inStock : Bool) (m : AvailMap) (o : OptionPair) : AvailMap :=
  match o.name, o.value with
  | some n, some v =>
    if n = "" ∨ v = "" then m
    else mapSet m n (mergeValue inStock ((mapGet m n).getD []) v)
  | _, _ => m

/-- Body of the outer combination loop of the module-level
buildAvailabilityMap (custom-popmerch.js lines 99-125). -/
def processCombo (m : AvailMap) (c : CombinationRecord) : AvailMap :=
  (c.options.getD []).foldl (processOption (stockSignal c)) m

/-- Module-level buildAvailabilityMap of the v3 stock manager
(custom-popmerch.js lines 88-137), with the early return on an empty
combinations array. -/
def buildAvailabilityMap (records : List CombinationRecord) : AvailMap :=
  if records.isEmpty then [] else records.foldl processCombo []

/-- Inner option loop of StockManager.buildAvailabilityMap of the
refactored V2 class (custom-popmerch.js lines 1175-1188): the current
status is read with a default of false and OR-merged unconditionally. -/
def v2ProcessOption (inStock : Bool) (m : AvailMap) (o : OptionPair) : AvailMap :=
  match o.name, o.value with
  | some n, some v =>
    if n = "" ∨ v = "" then m
    else
      let vm := (mapGet m n).getD []
      let current := (mapGet vm v).getD false
      mapSet m n (mapSet vm v (current || inStock))
  | _, _ => m

/-- Outer combination loop of StockManager.buildAvailabilityMap
(custom-popmerch.js lines 1167-1189). -/
def v2ProcessCombo (m : AvailMap) (c : CombinationRecord) : AvailMap :=
  (c.options.getD []).foldl (v2ProcessOption (stockSignal c)) m

/-- StockManager.buildAvailabilityMap of the refactored V2 class
(custom-popmerch.js lines 1164-1192; identical code in the bundled copy,
src unnamed part 001 lines 125-142). No early-empty check: the loop over
an empty list yields the empty map directly. -/
def v2BuildAvailabilityMap (records : List CombinationRecord) : AvailMap :=
  records.foldl v2ProcessCombo []

/-- An options entry carries exactly the non-falsy pair (n, v). -/
def validPair (n v : String) (o : OptionPair) : Bool :=
  decide (o.name = some n ∧ o.value = some v ∧ n ≠ "" ∧ v ≠ "")

/-- A combination record contains the valid option pair (n, v). -/
def comboHasPair (n v : String) (c : CombinationRecord) : Bool :=
  (c.options.getD []).any (validPair n v)

/-- Two-level lookup in an availability map. -/
def lookup2 (m : AvailMap) (n v : String) : Option Bool :=
  (mapGet m n).bind (fun vm => mapGet vm v)

/-- Every value key of the first inner map is present with the same boolean
in the second. -/
def valMapSub (a b : ValMap) : Bool :=
  a.all (fun p => mapGet b p.1 == some p.2)

/-- Extensional equality of inner value maps. -/
def valMapExtEq (a b : ValMap) : Bool :=
  valMapSub a b && valMapSub b a

/-- Every option name of the first map is present in the second with an
extensionally equal inner map. -/
def availSub (a b : AvailMap) : Bool :=
  a.all (fun p =>
    match mapGet b p.1 with
    | some vm => valMapExtEq p.2 vm
    | none => false)

/-- Extensional equality of availability maps: same set of option names,
same option values under each name, same boolean for each pair. -/
def availExtEq (a b : AvailMap) : Bool :=
  availSub a b && availSub b a

/-- Well-formedness holding of every availability map the builder produces:
keys are unique at both levels and inner maps are nonempty. -/
def WFAvail (m : AvailMap) : Prop :=
  (m.map Prod.fst).Nodup ∧ ∀ p ∈ m, p.2 ≠ [] ∧ (p.2.map Prod.fst).Nodup

/-- Observable state of the wrapper element around a radio input: whether
it carries the disabled class (CONFIG.disabledClass, ecwid-oos), its
aria-disabled attribute, and everything else about it, untouched by the
engine, collapsed into one field. -/
structure Wrapper where
  oos : Bool
  aria : Option String
  rest : String
deriving DecidableEq

/-- Observable state of one option radio input matched by the selector
input.form-control__radio with a name attribute: its option name and
value, the checked and disabled flags, and its wrapper when
closest(.form-control--checkbox-button) or closest(.form-control) finds
one. -/
structure Control where
  name : String
  value : String
  checked : Bool
  disabled : Bool
  wrapper : Option Wrapper
deriving DecidableEq

/-- Observable side effects of the reconciler: a synthetic click on the
control holding the given value, or a stock fetch for a product. The
functions below never emit a fetch effect, mirroring that the source of
applyStockStatus and autoSelectFirstAvailable contains no fetch call. -/
inductive Effect where
  | click (value : String)
  | fetchStock (productId : Nat)
deriving DecidableEq

/-- Per-input body of applyStockStatus (custom-popmerch.js lines 159-186):
a value without stock info is left as-is; otherwise the input's disabled
flag is set, and the wrapper, when present, gets the disabled class
toggled to the same flag and aria-disabled set to "true" or "false". -/
def applyToControl (vm : ValMap) (c : Control) : Control :=
  match mapGet vm c.value with
  | none => c
  | some inStock =>
    { c with
      disabled := !inStock
      wrapper := c.wrapper.map (fun w =>
        { w with
          oos := !inStock
          aria := some (if !inStock then "true" else "false") }) }

/-- The disable pass of applyStockStatus over the whole document: the
querySelectorAll by name selects exactly the controls whose name equals
the option name; each is updated in place. -/
def applyDisable (n : String) (vm : ValMap) (doc : List Control) : List Control :=
  doc.map (fun c => if c.name = n then applyToControl vm c else c)

/-- DOM radio semantics of firstEnabled.click() inside a name group
(custom-popmerch.js line 211): walking the document in order, the first
control of the group that is not disabled becomes checked and every other
control of the group becomes unchecked; controls of other groups are
untouched. The boolean argument records whether the clicked control has
already been passed. -/
def clickFirstEnabled (n : String) : Bool → List Control → List Control
  | _, [] => []
  | found, c :: rest =>
    if c.name = n then
      if found = false ∧ c.disabled = false then
        { c with checked := true } :: clickFirstEnabled n true rest
      else
        { c with checked := false } :: clickFirstEnabled n found rest
    else c :: clickFirstEnabled n found rest

/-- The guard of autoSelectFirstAvailable (custom-popmerch.js line 204):
the group needs correction when nothing in it is checked, or the first
checked input is disabled. -/
def needsCorrection (n : String) (doc : List Control) : Bool :=
  match (doc.filter (fun c => c.name = n)).find? (fun c => c.checked) with
  | none => true
  | some c => c.disabled

/-- autoSelectFirstAvailable (custom-popmerch.js lines 200-216) on the
inputs of one option name: when the group needs correction, the first
enabled input is clicked (at most one click, never a fetch); otherwise
nothing happens. Returns the new document and the emitted effects. -/
def autoSelectFirstAvailable (n : String) (doc : List Control) :
    List Control × List Effect :=
  if needsCorrection n doc then
    match (doc.filter (fun c => c.name = n)).find? (fun c => !c.disabled) with
    | some fe => (clickFirstEnabled n false doc, [Effect.click fe.value])
    | none => (doc, [])
  else (doc, [])

/-- One iteration of the applyStockStatus entries loop (custom-popmerch.js
lines 143-196): when no input carries the option name the entry is
skipped; otherwise the disable pass runs over the matched inputs and then
autoSelectFirstAvailable runs on the same group. -/
def applyOption (doc : List Control) : String × ValMap → List Control
  | (n, vm) =>
    if doc.any (fun c => c.name = n) then
      (autoSelectFirstAvailable n (applyDisable n vm doc)).1
    else doc

/-- applyStockStatus (custom-popmerch.js lines 140-197): fold the entries
loop over the availability map in insertion order. -/
def applyStockStatus (m : AvailMap) (doc : List Control) : List Control :=
  m.foldl applyOption doc

/-- The disable pass fixes every control of the group: each matched
control is already exactly what applyToControl would make of it. -/
def AppliedInv (n : String) (vm : ValMap) (doc : List Control) : Prop :=
  ∀ c ∈ doc, c.name = n → applyToControl vm c = c

/-- The selection of the group needs no correction: either every control
of the group is disabled, or the first checked control exists and is
enabled. -/
def SelOK (n : String) (doc : List Control) : Prop :=
  ((doc.filter (fun c => c.name = n)).all (fun c => c.disabled) = true) ∨
  (∃ c, (doc.filter (fun c => c.name = n)).find? (fun c => c.checked) = some c ∧
    c.disabled = false)

/-- Cache TTL of runForProduct, src url-localization bundle:
CACHE_TTL_MS = 60000. -/
def CACHE_TTL_MS : Int := 60000

/-- One sessionStorage cache entry as serialised by runForProduct: the
write timestamp t and the fetched items (the JSON round-trip of
well-formed records is abstracted as the identity). -/
structure CacheEntry where
  t : Int
  items : List CombinationRecord
deriving DecidableEq

/-- The sessionStorage key-value space holding cache entries. -/
abbrev Cache := List (String × CacheEntry)

/-- Cache key built by runForProduct: ecwid-combos prefix, store id,
product id. -/
def cacheKey (storeId productId : Nat) : String :=
  "ecwid-combos:" ++ toString storeId ++ ":" ++ toString productId

/-- The sessionStorage.setItem write of runForProduct after a successful
fetch: stores the current time and the fetched items under the key. -/
def cachePut (c : Cache) (storeId productId : Nat) (now : Int)
    (items : List CombinationRecord) : Cache :=
  mapSet c (cacheKey storeId productId) ⟨now, items⟩

/-- The cache read of runForProduct: a stored entry is used only when its
age is strictly below the TTL; an entry at or past the TTL, or an absent
key, behaves as absence. -/
def cacheGet (c : Cache) (storeId productId : Nat) (now : Int) :
    Option (List CombinationRecord) :=
  match mapGet c (cacheKey storeId productId) with
  | some e => if now - e.t < CACHE_TTL_MS then some e.items else none
  | none => none

/-- What runForProduct does after consulting the cache: reuse the cached
records, or fall through to a fresh network fetch. -/
inductive RunAction where
  | useCache (items : List CombinationRecord)
  | fetchFresh
deriving DecidableEq

/-- Control flow of runForProduct: a fresh cached entry short-circuits the
network; otherwise fetchCombinations is called. -/
def runForProductAction (c : Cache) (storeId productId : Nat) (now : Int) :
    RunAction :=
  match cacheGet c storeId productId now with
  | some items => RunAction.useCache items
  | none => RunAction.fetchFresh

/-- Parsed shape of the HTTP response body of the combinations endpoint:
a bare array, an object carrying an items array, an object without items
(normalised to [] by the fallback), a null body (reading items throws,
caught by the handler), or a body that fails to parse. -/
inductive FetchBodyData where
  | jsonArr (items : List CombinationRecord)
  | jsonObjWithItems (items : List CombinationRecord)
  | jsonObjNoItems
  | jsonNullish
  | parseFail
deriving DecidableEq

/-- Outcome of one HTTP request as observed by the stock fetch: the fetch
promise rejects (network failure), the abort timer fires, or a response
arrives with a status and a body. -/
inductive FetchOutcome where
  | netError
  | timeout
  | httpResponse (status : Nat) (body : FetchBodyData)
deriving DecidableEq

/-- The try block shared by fetchProductCombinations (custom-popmerch.js
lines 66-80) and StockManager.fetchCombinations (lines 1135-1152): a
rejection or abort throws; response.ok means status 200-299 and a non-ok
response throws HTTP status; the parsed body is normalised to an array or
the items field with [] fallback. -/
def fetchTryBlock : FetchOutcome → Except String (List CombinationRecord)
  | FetchOutcome.netError => Except.error "TypeError"
  | FetchOutcome.timeout => Except.error "AbortError"
  | FetchOutcome.httpResponse status body =>
    if status < 200 ∨ 300 ≤ status then
      Except.error ("HTTP " ++ toString status)
    else
      match body with
      | FetchBodyData.parseFail => Except.error "SyntaxError"
      | FetchBodyData.jsonNullish => Except.error "TypeError"
      | FetchBodyData.jsonArr items => Except.ok items
      | FetchBodyData.jsonObjWithItems items => Except.ok items
      | FetchBodyData.jsonObjNoItems => Except.ok []

/-- fetchProductCombinations and StockManager.fetchCombinations as seen by
their callers: the catch handler logs the cause and resolves with the
empty list, so the function always returns a plain record list and never
propagates a rejection. -/
def fetchCombinations (o : FetchOutcome) : List CombinationRecord :=
  match fetchTryBlock o with
  | Except.ok items => items
  | Except.error _ => []

/-- The failure outcomes: network error, timeout or abort, non-2xx HTTP
status, malformed response body. -/
def isFailureOutcome : FetchOutcome → Bool
  | FetchOutcome.netError => true
  | FetchOutcome.timeout => true
  | FetchOutcome.httpResponse status body =>
    decide (status < 200 ∨ 300 ≤ status) ||
    (match body with
     | FetchBodyData.parseFail => true
     | FetchBodyData.jsonNullish => true
     | _ => false)

/-- One fetch attempt outcome of the retrying stock client. -/
inductive AttemptOutcome where
  | success (items : List CombinationRecord)
  | timeout
  | netError
  | serverError (status : Nat)
  | clientError (status : Nat)
deriving DecidableEq

/-- Modelled from the spec: failure classification of the Stock Data
Client of custom-popmerch-refactored.js, whose source is not among the
provided files (the repository README documents it: Retry Logic,
exponential backoff for network failures). Timeouts, network errors and
5xx responses are retryable; a 4xx client error is not. -/
def retryable : AttemptOutcome → Bool
  | AttemptOutcome.timeout => true
  | AttemptOutcome.netError => true
  | AttemptOutcome.serverError _ => true
  | _ => false

/-- Modelled from the spec: the attempt loop of the missing
custom-popmerch-refactored.js Stock Data Client. The list outs prescribes
the outcome of each attempt in turn, n is the 1-based attempt number and
maxAttempts the configured attempt budget. A success returns its records;
a 4xx client error returns [] at once with no further attempt; a
retryable failure, while attempts remain, waits base * 2 ^ (n - 1)
milliseconds (retry n waits that long) and tries again, and otherwise
yields []. Returns the records and the list of backoff delays waited. -/
def runAttempts (base : Nat) : List AttemptOutcome → Nat → Nat →
    List CombinationRecord × List Nat
  | [], _, _ => ([], [])
  | o :: rest, n, maxAttempts =>
    match o with
    | AttemptOutcome.success items => (items, [])
    | AttemptOutcome.clientError _ => ([], [])
    | _ =>
      if n < maxAttempts then
        ((runAttempts base rest (n + 1) maxAttempts).1,
          base * 2 ^ (n - 1) :: (runAttempts base rest (n + 1) maxAttempts).2)
      else ([], [])

/-- Modelled from the spec: the retrying fetch of the missing refactored
Stock Data Client, starting at attempt 1. -/
def fetchWithRetry (base maxAttempts : Nat) (outs : List AttemptOutcome) :
    List CombinationRecord × List Nat :=
  runAttempts base outs 1 maxAttempts

/-- Modelled from the spec: the two-tier Availability Cache of the
missing custom-popmerch-refactored.js (README: Session Storage primary
tier, Memory Cache fallback): a durable per-session tier and a volatile
memory tier. -/
structure TwoTierCache where
  durable : List (String × CacheEntry)
  memory : List (String × CacheEntry)
deriving DecidableEq

/-- Modelled from the spec: a durable-tier write that may fail (quota
exceeded or storage disabled), the failure injected by the flag. -/
def durableWrite (st : List (String × CacheEntry)) (fails : Bool)
    (k : String) (e : CacheEntry) :
    Except String (List (String × CacheEntry)) :=
  if fails then Except.error "QuotaExceededError"
  else Except.ok (mapSet st k e)

/-- Modelled from the spec: put of the two-tier cache of the missing
refactored script; the durable write is attempted and its failure is
swallowed, after which the memory tier is always written; the operation
never throws (it is total and always returns Except.ok). -/
def twoTierPut (c : TwoTierCache) (durableFails : Bool) (k : String)
    (e : CacheEntry) : Except String TwoTierCache :=
  match durableWrite c.durable durableFails k e with
  | Except.ok st => Except.ok ⟨st, mapSet c.memory k e⟩
  | Except.error _ => Except.ok ⟨c.durable, mapSet c.memory k e⟩

/-- Modelled from the spec: read of a single tier under the shared TTL
rule. -/
def tierGet (st : List (String × CacheEntry)) (k : String) (now : Int) :
    Option (List CombinationRecord) :=
  match mapGet st k with
  | some e => if now - e.t < CACHE_TTL_MS then some e.items else none
  | none => none

/-- Modelled from the spec: get of the two-tier cache; the durable tier is
consulted first, and a read failure or absence falls through to the
memory tier. -/
def twoTierGet (c : TwoTierCache) (durableReadFails : Bool) (k : String)
    (now : Int) : Option (List CombinationRecord) :=
  match (if durableReadFails then none else tierGet c.durable k now) with
  | some items => some items
  | none => tierGet c.memory k now

/-- Modelled from the spec: the put-then-reconcile step of the pipeline,
in which the availability decision is built from the freshly fetched
records; were the put to throw, reconciliation would be skipped. -/
def putThenReconcile (c : TwoTierCache) (durableFails : Bool) (k : String)
    (now : Int) (items : List CombinationRecord) : AvailMap :=
  match twoTierPut c durableFails k ⟨now, items⟩ with
  | Except.ok _ => buildAvailabilityMap items
  | Except.error _ => []

end Popmerch

namespace Popmerch

theorem mapGet_mapSet {α : Type} (m : List (String × α)) (k k0 : String) (v : α) :
    mapGet (mapSet m k v) k0 = if k = k0 then some v else mapGet m k0 := by
  induction m with
  | nil => simp [mapGet, mapSet]
  | cons h t ih =>
    obtain ⟨k1, v1⟩ := h
    by_cases h1 : k1 = k
    · subst h1
      by_cases h2 : k1 = k0 <;> simp [mapGet, mapSet, h2]
    · by_cases h2 : k1 = k0
      · subst h2
        have hne : k ≠ k1 := fun h => h1 h.symm
        simp [mapGet, mapSet, h1, hne]
      · simp [mapGet, mapSet, h1, h2, ih]

theorem lookup2_eq_mapGet_getD (m : AvailMap) (n v : String) :
    lookup2 m n v = mapGet ((mapGet m n).getD []) v := by
  cases h : mapGet m n <;> simp [lookup2, h, mapGet]

theorem mapGet_mergeValue (s : Bool) (vm : ValMap) (v0 v : String) :
    mapGet (mergeValue s vm v0) v =
      if v0 = v then some ((mapGet vm v).getD false || s)
      else mapGet vm v := by
  by_cases hv : v0 = v
  · subst hv
    cases hg : mapGet vm v0 with
    | none => simp [mergeValue, hg, mapGet_mapSet]
    | some b => simp [mergeValue, hg, mapGet_mapSet]
  · cases hg : mapGet vm v0 with
    | none => simp [mergeValue, hg, mapGet_mapSet, hv]
    | some b => simp [mergeValue, hg, mapGet_mapSet, hv]

theorem validPair_eq (n v n0 v0 : String) (h1 : n0 ≠ "") (h2 : v0 ≠ "") :
    validPair n v ⟨some n0, some v0⟩ =
      (decide (n0 = n) && decide (v0 = v)) := by
  by_cases hn : n0 = n
  · by_cases hv : v0 = v
    · subst hn; subst hv; simp [validPair, h1, h2]
    · subst hn; simp [validPair, hv]
  · simp [validPair, hn]

theorem lookup2_processOption (s : Bool) (m : AvailMap) (o : OptionPair)
    (n v : String) :
    lookup2 (processOption s m o) n v =
      if validPair n v o = true then some ((lookup2 m n v).getD false || s)
      else lookup2 m n v := by
  rcases o with ⟨oname, ovalue⟩
  cases oname with
  | none => simp [processOption, validPair]
  | some n0 =>
    cases ovalue with
    | none => simp [processOption, validPair]
    | some v0 =>
      by_cases hemp : n0 = "" ∨ v0 = ""
      · have hvp : validPair n v ⟨some n0, some v0⟩ = false := by
          simp only [validPair, decide_eq_false_iff_not]
          rintro ⟨h1, h2, h3, h4⟩
          rcases hemp with h | h
          · apply h3
            rw [← Option.some_inj.mp h1]
            exact h
          · apply h4
            rw [← Option.some_inj.mp h2]
            exact h
        simp [processOption, hemp, hvp]
      · push_neg at hemp
        have hnor : ¬(n0 = "" ∨ v0 = "") := not_or.mpr ⟨hemp.1, hemp.2⟩
        simp only [processOption, if_neg hnor]
        rw [validPair_eq n v n0 v0 hemp.1 hemp.2]
        rw [lookup2_eq_mapGet_getD (mapSet _ _ _) n v, mapGet_mapSet]
        by_cases hn : n0 = n
        · rw [if_pos hn, Option.getD_some, mapGet_mergeValue]
          subst hn
          rw [← lookup2_eq_mapGet_getD]
          by_cases hv : v0 = v <;> simp [hv]
        · rw [if_neg hn, ← lookup2_eq_mapGet_getD]
          simp [hn]

theorem lookup2_foldl_options (s : Bool) (opts : List OptionPair)
    (m : AvailMap) (n v : String) :
    lookup2 (opts.foldl (processOption s) m) n v =
      if opts.any (validPair n v) = true then
        some ((lookup2 m n v).getD false || s)
      else lookup2 m n v := by
  induction opts generalizing m with
  | nil => simp
  | cons o rest ih =>
    simp only [List.foldl_cons, List.any_cons, ih, lookup2_processOption]
    by_cases ho : validPair n v o = true
    · simp only [ho, Bool.true_or, if_true]
      by_cases hr : rest.any (validPair n v) = true
      · simp only [hr, if_true, Option.getD_some]
        cases hb : (lookup2 m n v).getD false <;> cases s <;> simp
      · simp [hr]
    · simp only [Bool.not_eq_true] at ho
      simp [ho]

theorem lookup2_processCombo (m : AvailMap) (c : CombinationRecord)
    (n v : String) :
    lookup2 (processCombo m c) n v =
      if comboHasPair n v c = true then
        some ((lookup2 m n v).getD false || stockSignal c)
      else lookup2 m n v := by
  unfold processCombo comboHasPair
  exact lookup2_foldl_options _ _ m n v

theorem lookup2_foldl_records (records : List CombinationRecord)
    (m : AvailMap) (n v : String) :
    lookup2 (records.foldl processCombo m) n v =
      if records.any (comboHasPair n v) = true then
        some ((lookup2 m n v).getD false
          || records.any (fun c => comboHasPair n v c && stockSignal c))
      else lookup2 m n v := by
  induction records generalizing m with
  | nil => simp
  | cons c rest ih =>
    simp only [List.foldl_cons, List.any_cons, ih, lookup2_processCombo]
    by_cases hc : comboHasPair n v c = true
    · simp only [hc, Bool.true_or, if_true, Bool.true_and]
      by_cases hr : rest.any (comboHasPair n v) = true
      · simp only [hr, if_true, Option.getD_some]
        congr 1
        cases hb : (lookup2 m n v).getD false <;> cases hs : stockSignal c <;>
          simp
      · have hr3 : rest.any (comboHasPair n v) = false := by
          simpa using hr
        have hr2 : rest.any (fun c => comboHasPair n v c && stockSignal c) = false := by
          rw [List.any_eq_false] at hr3 ⊢
          intro x hx
          simp [hr3 x hx]
        simp [hr, hr2]
    · simp only [Bool.not_eq_true] at hc
      simp [hc]

theorem lookup2_build (records : List CombinationRecord) (n v : String) :
    lookup2 (buildAvailabilityMap records) n v =
      if records.any (comboHasPair n v) = true then
        some (records.any (fun c => comboHasPair n v c && stockSignal c))
      else none := by
  cases records with
  | nil => simp [buildAvailabilityMap, lookup2, mapGet]
  | cons c rest =>
    have hb : buildAvailabilityMap (c :: rest) = (c :: rest).foldl processCombo [] := by
      simp [buildAvailabilityMap]
    rw [hb, lookup2_foldl_records]
    simp [lookup2, mapGet]

/-- C1: buildAvailabilityMap computes, for each valid (name, value) pair
occurring in the records, the OR across all records containing that pair of
the stock signal (unlimited OR quantity positive OR inStock); pairs with a
falsy name or value are skipped, pairs never occurring are absent, and the
empty record list yields the empty decision. -/
theorem buildAvailabilityMap_spec :
    buildAvailabilityMap [] = [] ∧
    ∀ (records : List CombinationRecord) (n v : String),
      lookup2 (buildAvailabilityMap records) n v =
        if records.any (comboHasPair n v) = true then
          some (records.any (fun c => comboHasPair n v c && stockSignal c))
        else none :=
  ⟨rfl, lookup2_build⟩

theorem v2ProcessOption_eq (s : Bool) (m : AvailMap) (o : OptionPair) :
    v2ProcessOption s m o = processOption s m o := by
  rcases o with ⟨oname, ovalue⟩
  cases oname with
  | none => rfl
  | some n0 =>
    cases ovalue with
    | none => rfl
    | some v0 =>
      by_cases hemp : n0 = "" ∨ v0 = ""
      · simp [v2ProcessOption, processOption, hemp]
      · simp only [v2ProcessOption, processOption, if_neg hemp]
        cases hg : mapGet ((mapGet m n0).getD []) v0 <;>
          simp [mergeValue, hg]

theorem foldl_v2opt_eq (s : Bool) (opts : List OptionPair) (m : AvailMap) :
    opts.foldl (v2ProcessOption s) m = opts.foldl (processOption s) m := by
  induction opts generalizing m with
  | nil => rfl
  | cons o rest ih => simp [v2ProcessOption_eq, ih]

theorem v2ProcessCombo_eq (m : AvailMap) (c : CombinationRecord) :
    v2ProcessCombo m c = processCombo m c :=
  foldl_v2opt_eq _ _ m

theorem foldl_v2combo_eq (records : List CombinationRecord) (m : AvailMap) :
    records.foldl v2ProcessCombo m = records.foldl processCombo m := by
  induction records generalizing m with
  | nil => rfl
  | cons c rest ih => simp [v2ProcessCombo_eq, ih]

/-- C10: the module-level buildAvailabilityMap of the v3 stock manager and
the buildAvailabilityMap method of the refactored V2 StockManager class
return equal availability maps on every record list (equal even as
insertion-ordered association lists, hence extensionally equal: same option
names, same option values under each name, same boolean for each pair). -/
theorem v2_v3_buildAvailabilityMap_eq (records : List CombinationRecord) :
    v2BuildAvailabilityMap records = buildAvailabilityMap records := by
  cases records with
  | nil => rfl
  | cons c rest =>
    have h1 : v2BuildAvailabilityMap (c :: rest) =
        (c :: rest).foldl processCombo [] := foldl_v2combo_eq _ _
    rw [h1]
    simp [buildAvailabilityMap]

theorem mapGet_eq_none_iff {α : Type} (m : List (String × α)) (k : String) :
    mapGet m k = none ↔ k ∉ m.map Prod.fst := by
  induction m with
  | nil => simp [mapGet]
  | cons h t ih =>
    obtain ⟨k1, v1⟩ := h
    by_cases h1 : k1 = k
    · subst h1
      simp [mapGet]
    · simp only [mapGet, if_neg h1, ih, List.map_cons, List.mem_cons]
      constructor
      · intro hnm hor
        rcases hor with h2 | h2
        · exact h1 h2.symm
        · exact hnm h2
      · intro hnm h2
        exact hnm (Or.inr h2)

theorem mem_mapSet {α : Type} {m : List (String × α)} {k : String} {v : α}
    {p : String × α} (h : p ∈ mapSet m k v) : p = (k, v) ∨ p ∈ m := by
  induction m with
  | nil => simpa [mapSet] using h
  | cons hd t ih =>
    obtain ⟨k1, v1⟩ := hd
    by_cases h1 : k1 = k
    · simp only [mapSet, if_pos h1] at h
      rcases List.mem_cons.mp h with h2 | h2
      · exact Or.inl h2
      · exact Or.inr (List.mem_cons_of_mem _ h2)
    · simp only [mapSet, if_neg h1] at h
      rcases List.mem_cons.mp h with h2 | h2
      · exact Or.inr (h2 ▸ List.mem_cons_self _ _)
      · rcases ih h2 with h3 | h3
        · exact Or.inl h3
        · exact Or.inr (List.mem_cons_of_mem _ h3)

theorem mapGet_of_mem_nodup {α : Type} {m : List (String × α)} {k : String}
    {v : α} (hnd : (m.map Prod.fst).Nodup) (h : (k, v) ∈ m) :
    mapGet m k = some v := by
  induction m with
  | nil => simp at h
  | cons hd t ih =>
    obtain ⟨k1, v1⟩ := hd
    simp only [List.map_cons, List.nodup_cons] at hnd
    rcases List.mem_cons.mp h with h2 | h2
    · cases h2
      simp [mapGet]
    · have hk1 : k1 ≠ k := by
        intro he
        subst he
        exact hnd.1 (List.mem_map_of_mem Prod.fst h2)
      simp [mapGet, hk1, ih hnd.2 h2]

theorem mem_of_mapGet {α : Type} {m : List (String × α)} {k : String} {v : α}
    (h : mapGet m k = some v) : (k, v) ∈ m := by
  induction m with
  | nil => simp [mapGet] at h
  | cons hd t ih =>
    obtain ⟨k1, v1⟩ := hd
    by_cases h1 : k1 = k
    · subst h1
      simp [mapGet] at h
      subst h
      exact List.mem_cons_self _ _
    · simp only [mapGet, if_neg h1] at h
      exact List.mem_cons_of_mem _ (ih h)

theorem keys_mapSet {α : Type} (m : List (String × α)) (k : String) (v : α) :
    (mapSet m k v).map Prod.fst =
      if (mapGet m k).isSome then m.map Prod.fst
      else m.map Prod.fst ++ [k] := by
  induction m with
  | nil => simp [mapSet, mapGet]
  | cons hd t ih =>
    obtain ⟨k1, v1⟩ := hd
    by_cases h1 : k1 = k
    · subst h1
      simp [mapSet, mapGet]
    · simp [mapSet, mapGet, h1, ih]
      by_cases h2 : (mapGet t k).isSome <;> simp [h2]

theorem nodup_keys_mapSet {α : Type} {m : List (String × α)} {k : String}
    {v : α} (hnd : (m.map Prod.fst).Nodup) :
    ((mapSet m k v).map Prod.fst).Nodup := by
  rw [keys_mapSet]
  by_cases h : (mapGet m k).isSome
  · simpa [h] using hnd
  · have hk : k ∉ m.map Prod.fst := by
      rw [← mapGet_eq_none_iff]
      cases hg : mapGet m k
      · rfl
      · simp [hg] at h
    simp [h, List.nodup_append, hnd, hk]

theorem mapSet_ne_nil {α : Type} (m : List (String × α)) (k : String) (v : α) :
    mapSet m k v ≠ [] := by
  cases m with
  | nil => simp [mapSet]
  | cons hd t =>
    obtain ⟨k1, v1⟩ := hd
    by_cases h1 : k1 = k <;> simp [mapSet, h1]

theorem wf_processOption (s : Bool) (m : AvailMap) (o : OptionPair)
    (hwf : WFAvail m) : WFAvail (processOption s m o) := by
  rcases o with ⟨oname, ovalue⟩
  cases oname with
  | none => exact hwf
  | some n0 =>
    cases ovalue with
    | none => exact hwf
    | some v0 =>
      by_cases hemp : n0 = "" ∨ v0 = ""
      · simpa [processOption, hemp] using hwf
      · simp only [processOption, if_neg hemp]
        constructor
        · exact nodup_keys_mapSet hwf.1
        · intro p hp
          rcases mem_mapSet hp with h2 | h2
          · subst h2
            have hinner : (((mapGet m n0).getD []).map Prod.fst).Nodup := by
              cases hg : mapGet m n0 with
              | none => simp
              | some vm0 => exact (hwf.2 _ (mem_of_mapGet hg)).2
            constructor
            · cases hg : mapGet ((mapGet m n0).getD []) v0 <;>
                simp [mergeValue, hg, mapSet_ne_nil]
            · cases hg : mapGet ((mapGet m n0).getD []) v0 <;>
                simp [mergeValue, hg, nodup_keys_mapSet hinner]
          · exact hwf.2 _ h2

theorem wf_processCombo (m : AvailMap) (c : CombinationRecord)
    (hwf : WFAvail m) : WFAvail (processCombo m c) := by
  unfold processCombo
  induction (c.options.getD []) generalizing m with
  | nil => exact hwf
  | cons o rest ih => exact ih _ (wf_processOption _ _ _ hwf)

theorem wf_build (records : List CombinationRecord) :
    WFAvail (buildAvailabilityMap records) := by
  have hnil : WFAvail [] := ⟨List.nodup_nil, by intro p hp; simp at hp⟩
  unfold buildAvailabilityMap
  by_cases he : records.isEmpty
  · simpa [he] using hnil
  · simp only [he, if_neg]
    clear he
    suffices h : ∀ (l : List CombinationRecord) (m : AvailMap),
        WFAvail m → WFAvail (l.foldl processCombo m) by
      exact h records [] hnil
    intro l
    induction l with
    | nil => intro m hm; exact hm
    | cons c rest ih =>
      intro m hm
      exact ih _ (wf_processCombo _ _ hm)

theorem any_eq_of_perm {α : Type} {l l' : List α} (h : l.Perm l')
    (p : α → Bool) : l.any p = l'.any p := by
  cases ha : l.any p with
  | true =>
    obtain ⟨x, hx, hpx⟩ := List.any_eq_true.mp ha
    exact (List.any_eq_true.mpr ⟨x, h.mem_iff.mp hx, hpx⟩).symm
  | false =>
    have ha2 := List.any_eq_false.mp ha
    refine (List.any_eq_false.mpr ?_).symm
    intro x hx
    exact ha2 x (h.mem_iff.mpr hx)

theorem lookup2_build_of_perm {l l' : List CombinationRecord}
    (h : l.Perm l') (n v : String) :
    lookup2 (buildAvailabilityMap l) n v =
      lookup2 (buildAvailabilityMap l') n v := by
  rw [lookup2_build, lookup2_build, any_eq_of_perm h (comboHasPair n v),
    any_eq_of_perm h (fun c => comboHasPair n v c && stockSignal c)]

theorem availSub_of_lookup2_eq {a b : AvailMap} (hwa : WFAvail a)
    (hwb : WFAvail b) (h : ∀ n v, lookup2 a n v = lookup2 b n v) :
    availSub a b = true := by
  rw [availSub, List.all_eq_true]
  rintro ⟨n, vm⟩ hp
  have hga : mapGet a n = some vm := mapGet_of_mem_nodup hwa.1 hp
  have hne : vm ≠ [] := (hwa.2 _ hp).1
  obtain ⟨⟨v0, b0⟩, hv0⟩ := List.exists_mem_of_ne_nil vm hne
  have hndvm : (vm.map Prod.fst).Nodup := (hwa.2 _ hp).2
  have hgv0 : mapGet vm v0 = some b0 := mapGet_of_mem_nodup hndvm hv0
  have hl : lookup2 b n v0 = some b0 := by
    rw [← h n v0]
    simp [lookup2, hga, hgv0]
  obtain ⟨vmb, hgb, hgbv⟩ := Option.bind_eq_some.mp hl
  have hndb : (vmb.map Prod.fst).Nodup := (hwb.2 _ (mem_of_mapGet hgb)).2
  simp only [hgb]
  rw [valMapExtEq, Bool.and_eq_true]
  constructor
  · rw [valMapSub, List.all_eq_true]
    rintro ⟨v1, b1⟩ hq
    have hq1 : mapGet vm v1 = some b1 := mapGet_of_mem_nodup hndvm hq
    have h2 : lookup2 b n v1 = some b1 := by
      rw [← h n v1]
      simp [lookup2, hga, hq1]
    simp only [lookup2, hgb] at h2
    have h3 : mapGet vmb v1 = some b1 := h2
    simp [h3]
  · rw [valMapSub, List.all_eq_true]
    rintro ⟨v1, b1⟩ hq
    have hq1 : mapGet vmb v1 = some b1 := mapGet_of_mem_nodup hndb hq
    have h2 : lookup2 a n v1 = some b1 := by
      rw [h n v1]
      simp [lookup2, hgb, hq1]
    simp only [lookup2, hga] at h2
    have h3 : mapGet vm v1 = some b1 := h2
    simp [h3]

/-- C4: buildAvailabilityMap is order-independent: permuting the input
record list yields an extensionally equal availability decision (same set
of option-name and option-value keys, same boolean for each pair). -/
theorem buildAvailabilityMap_perm_invariant (l l' : List CombinationRecord)
    (h : l.Perm l') :
    availExtEq (buildAvailabilityMap l) (buildAvailabilityMap l') = true := by
  rw [availExtEq, Bool.and_eq_true]
  constructor
  · exact availSub_of_lookup2_eq (wf_build l) (wf_build l')
      (lookup2_build_of_perm h)
  · exact availSub_of_lookup2_eq (wf_build l') (wf_build l)
      (fun n v => (lookup2_build_of_perm h n v).symm)

/-- Witness for C4 at a concrete two-record permutation: the record lists
from the spec's OR-merge example, in both orders. -/
theorem buildAvailabilityMap_perm_witness :
    ([⟨none, some 0, none, some [⟨some "Size", some "S"⟩]⟩,
      ⟨some true, none, none, some [⟨some "Size", some "S"⟩]⟩] :
        List CombinationRecord).Perm
      [⟨some true, none, none, some [⟨some "Size", some "S"⟩]⟩,
       ⟨none, some 0, none, some [⟨some "Size", some "S"⟩]⟩] ∧
    availExtEq
      (buildAvailabilityMap
        [⟨none, some 0, none, some [⟨some "Size", some "S"⟩]⟩,
         ⟨some true, none, none, some [⟨some "Size", some "S"⟩]⟩])
      (buildAvailabilityMap
        [⟨some true, none, none, some [⟨some "Size", some "S"⟩]⟩,
         ⟨none, some 0, none, some [⟨some "Size", some "S"⟩]⟩]) = true :=
  ⟨List.Perm.swap _ _ _, buildAvailabilityMap_perm_invariant _ _
    (List.Perm.swap _ _ _)⟩

theorem applyToControl_name (vm : ValMap) (c : Control) :
    (applyToControl vm c).name = c.name := by
  cases hg : mapGet vm c.value <;> simp [applyToControl, hg]

theorem applyToControl_value (vm : ValMap) (c : Control) :
    (applyToControl vm c).value = c.value := by
  cases hg : mapGet vm c.value <;> simp [applyToControl, hg]

theorem applyToControl_checked (vm : ValMap) (c : Control) :
    (applyToControl vm c).checked = c.checked := by
  cases hg : mapGet vm c.value <;> simp [applyToControl, hg]

theorem applyToControl_idem (vm : ValMap) (c : Control) :
    applyToControl vm (applyToControl vm c) = applyToControl vm c := by
  cases hg : mapGet vm c.value with
  | none => simp [applyToControl, hg]
  | some s =>
    have hv : (applyToControl vm c).value = c.value := applyToControl_value vm c
    simp only [applyToControl, hg]
    cases hw : c.wrapper <;> simp [applyToControl, hg, hw]

theorem applyToControl_checked_set (vm : ValMap) (c : Control) (b : Bool) :
    applyToControl vm { c with checked := b } =
      { applyToControl vm c with checked := b } := by
  cases hg : mapGet vm c.value <;> simp [applyToControl, hg]

theorem clickFE_forall2 (n : String) (f : Bool) (doc : List Control) :
    List.Forall₂ (fun c c2 => c2 = c ∨ c2 = { c with checked := true } ∨
      c2 = { c with checked := false }) doc (clickFirstEnabled n f doc) := by
  induction doc generalizing f with
  | nil => exact List.Forall₂.nil
  | cons c rest ih =>
    by_cases h1 : c.name = n
    · by_cases h2 : f = false ∧ c.disabled = false
      · simp only [clickFirstEnabled, if_pos h1, if_pos h2]
        exact List.Forall₂.cons (Or.inr (Or.inl rfl)) (ih _)
      · simp only [clickFirstEnabled, if_pos h1, if_neg h2]
        exact List.Forall₂.cons (Or.inr (Or.inr rfl)) (ih _)
    · simp only [clickFirstEnabled, if_neg h1]
      exact List.Forall₂.cons (Or.inl rfl) (ih _)

theorem mem_clickFE (n : String) (f : Bool) {doc : List Control}
    {c2 : Control} (h : c2 ∈ clickFirstEnabled n f doc) :
    c2 ∈ doc ∨ ∃ c ∈ doc, c.name = n ∧
      (c2 = { c with checked := true } ∨ c2 = { c with checked := false }) := by
  induction doc generalizing f with
  | nil => simp [clickFirstEnabled] at h
  | cons c rest ih =>
    by_cases h1 : c.name = n
    · by_cases h2 : f = false ∧ c.disabled = false
      · simp only [clickFirstEnabled, if_pos h1, if_pos h2] at h
        rcases List.mem_cons.mp h with h3 | h3
        · exact Or.inr ⟨c, List.mem_cons_self _ _, h1, Or.inl h3⟩
        · rcases ih _ h3 with h4 | ⟨c0, hc0, hn0, he0⟩
          · exact Or.inl (List.mem_cons_of_mem _ h4)
          · exact Or.inr ⟨c0, List.mem_cons_of_mem _ hc0, hn0, he0⟩
      · simp only [clickFirstEnabled, if_pos h1, if_neg h2] at h
        rcases List.mem_cons.mp h with h3 | h3
        · exact Or.inr ⟨c, List.mem_cons_self _ _, h1, Or.inr h3⟩
        · rcases ih _ h3 with h4 | ⟨c0, hc0, hn0, he0⟩
          · exact Or.inl (List.mem_cons_of_mem _ h4)
          · exact Or.inr ⟨c0, List.mem_cons_of_mem _ hc0, hn0, he0⟩
    · simp only [clickFirstEnabled, if_neg h1] at h
      rcases List.mem_cons.mp h with h3 | h3
      · exact Or.inl (h3 ▸ List.mem_cons_self _ _)
      · rcases ih _ h3 with h4 | ⟨c0, hc0, hn0, he0⟩
        · exact Or.inl (List.mem_cons_of_mem _ h4)
        · exact Or.inr ⟨c0, List.mem_cons_of_mem _ hc0, hn0, he0⟩

theorem filter_clickFE {n n1 : String} (hne : n ≠ n1) (f : Bool)
    (doc : List Control) :
    (clickFirstEnabled n1 f doc).filter (fun c => c.name = n) =
      doc.filter (fun c => c.name = n) := by
  induction doc generalizing f with
  | nil => rfl
  | cons c rest ih =>
    by_cases h1 : c.name = n1
    · have h2 : ¬(c.name = n) := by
        rw [h1]
        exact fun h => hne h.symm
      by_cases h3 : f = false ∧ c.disabled = false
      · simp [clickFirstEnabled, h1, h3, List.filter_cons, h2, hne.symm, ih]
      · simp [clickFirstEnabled, h1, h3, List.filter_cons, h2, hne.symm, ih]
    · by_cases h2 : c.name = n
      · simp [clickFirstEnabled, h1, List.filter_cons, h2, hne, hne.symm, ih]
      · simp [clickFirstEnabled, h1, List.filter_cons, h2, hne, hne.symm, ih]

theorem clickFE_first_checked {n : String} {fe : Control} :
    ∀ doc : List Control,
      (doc.filter (fun c => c.name = n)).find? (fun c => !c.disabled) =
        some fe →
      ((clickFirstEnabled n false doc).filter (fun c => c.name = n)).find?
          (fun c => c.checked) = some { fe with checked := true } := by
  intro doc
  induction doc with
  | nil => intro h; simp at h
  | cons c rest ih =>
    intro h
    by_cases h1 : c.name = n
    · by_cases h2 : c.disabled = false
      · have hfe : fe = c := by
          rw [List.filter_cons_of_pos (by simp [h1])] at h
          rw [List.find?_cons_of_pos _ (by simp [h2])] at h
          exact (Option.some_inj.mp h).symm
        subst hfe
        rw [show clickFirstEnabled n false (fe :: rest) =
            { fe with checked := true } :: clickFirstEnabled n true rest by
          simp [clickFirstEnabled, h1, h2]]
        rw [List.filter_cons_of_pos (by simp [h1])]
        rw [List.find?_cons_of_pos _ (by simp)]
      · have h2b : c.disabled = true := by
          cases hd : c.disabled
          · exact absurd hd h2
          · rfl
        have hrest : (rest.filter (fun c => c.name = n)).find?
            (fun c => !c.disabled) = some fe := by
          rw [List.filter_cons_of_pos (by simp [h1])] at h
          rw [List.find?_cons_of_neg _ (by simp [h2b])] at h
          exact h
        rw [show clickFirstEnabled n false (c :: rest) =
            { c with checked := false } :: clickFirstEnabled n false rest by
          simp [clickFirstEnabled, h1, h2b]]
        rw [List.filter_cons_of_pos (by simp [h1])]
        rw [List.find?_cons_of_neg _ (by simp)]
        exact ih hrest
    · have hrest : (rest.filter (fun c => c.name = n)).find?
          (fun c => !c.disabled) = some fe := by
        rw [List.filter_cons_of_neg (by simp [h1])] at h
        exact h
      rw [show clickFirstEnabled n false (c :: rest) =
          c :: clickFirstEnabled n false rest by
        simp [clickFirstEnabled, h1]]
      rw [List.filter_cons_of_neg (by simp [h1])]
      exact ih hrest

theorem mem_applyDisable {n : String} {vm : ValMap} {doc : List Control}
    {c2 : Control} (h : c2 ∈ applyDisable n vm doc) :
    ∃ c ∈ doc, c2 = if c.name = n then applyToControl vm c else c := by
  unfold applyDisable at h
  obtain ⟨c, hc, he⟩ := List.mem_map.mp h
  exact ⟨c, hc, he.symm⟩

theorem appliedInv_applyDisable (n : String) (vm : ValMap)
    (doc : List Control) : AppliedInv n vm (applyDisable n vm doc) := by
  intro c2 h2 hname
  obtain ⟨c, hc, he⟩ := mem_applyDisable h2
  subst he
  by_cases h1 : c.name = n
  · rw [if_pos h1, applyToControl_idem]
  · rw [if_neg h1] at hname ⊢
    exact absurd hname h1

theorem appliedInv_clickFE {n n1 : String} {vm : ValMap} {doc : List Control}
    (hinv : AppliedInv n vm doc) (f : Bool) :
    AppliedInv n vm (clickFirstEnabled n1 f doc) := by
  intro c2 h2 hname
  rcases mem_clickFE n1 f h2 with h3 | ⟨c, hc, hn1, he⟩
  · exact hinv c2 h3 hname
  · rcases he with he | he <;> subst he
    · have hcn : c.name = n := by simpa using hname
      rw [applyToControl_checked_set, hinv c hc hcn]
    · have hcn : c.name = n := by simpa using hname
      rw [applyToControl_checked_set, hinv c hc hcn]

theorem applyDisable_eq_self (n : String) (vm : ValMap) :
    ∀ doc : List Control, AppliedInv n vm doc → applyDisable n vm doc = doc := by
  intro doc
  induction doc with
  | nil => intro _; rfl
  | cons c rest ih =>
    intro hinv
    have hc : (if c.name = n then applyToControl vm c else c) = c := by
      by_cases h1 : c.name = n
      · rw [if_pos h1]
        exact hinv c (List.mem_cons_self _ _) h1
      · rw [if_neg h1]
    have ht := ih (fun c2 h2 hn => hinv c2 (List.mem_cons_of_mem _ h2) hn)
    unfold applyDisable at ht ⊢
    rw [List.map_cons, hc, ht]

theorem filter_applyDisable {n n1 : String} (hne : n ≠ n1) (vm : ValMap)
    (doc : List Control) :
    (applyDisable n1 vm doc).filter (fun c => c.name = n) =
      doc.filter (fun c => c.name = n) := by
  induction doc with
  | nil => rfl
  | cons c rest ih =>
    unfold applyDisable at ih ⊢
    rw [List.map_cons]
    by_cases h1 : c.name = n1
    · have h2 : ¬(c.name = n) := by
        rw [h1]
        exact fun h => hne h.symm
      have h3 : ¬((applyToControl vm c).name = n) := by
        rw [applyToControl_name]
        exact h2
      rw [if_pos h1, List.filter_cons_of_neg (by simp [h3]),
        List.filter_cons_of_neg (by simp [h2]), ih]
    · by_cases h2 : c.name = n
      · rw [if_neg h1, List.filter_cons_of_pos (by simp [h2]),
          List.filter_cons_of_pos (by simp [h2]), ih]
      · rw [if_neg h1, List.filter_cons_of_neg (by simp [h2]),
          List.filter_cons_of_neg (by simp [h2]), ih]

theorem autoSelect_fst_cases (n : String) (doc : List Control) :
    (autoSelectFirstAvailable n doc).1 = doc ∨
    (autoSelectFirstAvailable n doc).1 = clickFirstEnabled n false doc := by
  unfold autoSelectFirstAvailable
  by_cases hnc : needsCorrection n doc = true
  · rw [if_pos hnc]
    cases hfe : (doc.filter (fun c => c.name = n)).find? (fun c => !c.disabled) with
    | none => left; rfl
    | some fe => right; rfl
  · rw [if_neg hnc]
    left
    rfl

theorem autoSelect_of_selOK {n : String} {doc : List Control} (h : SelOK n doc) :
    autoSelectFirstAvailable n doc = (doc, []) := by
  rcases h with hall | ⟨c, hfind, hdis⟩
  · have hfe : (doc.filter (fun c => c.name = n)).find? (fun c => !c.disabled) = none := by
      rw [List.find?_eq_none]
      intro x hx
      have hx2 := List.all_eq_true.mp hall x hx
      simp only [Bool.not_eq_true] at hx2 ⊢
      simp [hx2]
    unfold autoSelectFirstAvailable
    by_cases hnc : needsCorrection n doc = true
    · rw [if_pos hnc, hfe]
    · rw [if_neg hnc]
  · have hnc : needsCorrection n doc = false := by
      simp [needsCorrection, hfind, hdis]
    unfold autoSelectFirstAvailable
    rw [if_neg (by simp [hnc])]

theorem applyOption_eq_self {n : String} {vm : ValMap} {doc : List Control}
    (hinv : AppliedInv n vm doc) (hsel : SelOK n doc) :
    applyOption doc (n, vm) = doc := by
  rw [applyOption]
  by_cases hany : doc.any (fun c => c.name = n) = true
  · rw [if_pos hany, applyDisable_eq_self n vm doc hinv,
      autoSelect_of_selOK hsel]
  · rw [if_neg hany]

theorem appliedInv_applyOption (doc : List Control) (n : String) (vm : ValMap) :
    AppliedInv n vm (applyOption doc (n, vm)) := by
  rw [applyOption]
  by_cases hany : doc.any (fun c => c.name = n) = true
  · rw [if_pos hany]
    rcases autoSelect_fst_cases n (applyDisable n vm doc) with h | h
    · rw [h]
      exact appliedInv_applyDisable n vm doc
    · rw [h]
      exact appliedInv_clickFE (appliedInv_applyDisable n vm doc) false
  · rw [if_neg hany]
    intro c hc hname
    exfalso
    apply hany
    rw [List.any_eq_true]
    exact ⟨c, hc, by simp [hname]⟩

theorem selOK_applyOption (doc : List Control) (n : String) (vm : ValMap) :
    SelOK n (applyOption doc (n, vm)) := by
  rw [applyOption]
  by_cases hany : doc.any (fun c => c.name = n) = true
  case neg =>
    rw [if_neg hany]
    left
    have hfil : doc.filter (fun c => c.name = n) = [] := by
      rw [List.filter_eq_nil_iff]
      intro a ha hpa
      apply hany
      rw [List.any_eq_true]
      exact ⟨a, ha, hpa⟩
    rw [hfil]
    rfl
  case pos =>
    rw [if_pos hany]
    unfold autoSelectFirstAvailable
    by_cases hnc : needsCorrection n (applyDisable n vm doc) = true
    case neg =>
      rw [if_neg hnc]
      right
      unfold needsCorrection at hnc
      cases hch : ((applyDisable n vm doc).filter (fun c => c.name = n)).find?
          (fun c => c.checked) with
      | none =>
        rw [hch] at hnc
        simp at hnc
      | some c =>
        rw [hch] at hnc
        simp only [Bool.not_eq_true] at hnc
        exact ⟨c, rfl, hnc⟩
    case pos =>
      rw [if_pos hnc]
      cases hfe : ((applyDisable n vm doc).filter (fun c => c.name = n)).find?
          (fun c => !c.disabled) with
      | none =>
        left
        rw [List.all_eq_true]
        intro x hx
        have hx2 := List.find?_eq_none.mp hfe x hx
        simpa using hx2
      | some fe =>
        right
        have hsel := clickFE_first_checked (applyDisable n vm doc) hfe
        refine ⟨{ fe with checked := true }, hsel, ?_⟩
        have hfed := List.find?_some hfe
        simpa using hfed

theorem mem_applyOption_ne {doc : List Control} {e : String × ValMap}
    {c2 : Control} (h : c2 ∈ applyOption doc e) (hne : ¬(c2.name = e.1)) :
    c2 ∈ doc := by
  rcases e with ⟨n1, vm1⟩
  rw [applyOption] at h
  simp only at hne
  by_cases hany : doc.any (fun c => c.name = n1) = true
  · rw [if_pos hany] at h
    have hmem : ∀ c3 ∈ applyDisable n1 vm1 doc, ¬(c3.name = n1) → c3 ∈ doc := by
      intro c3 h3 hn3
      obtain ⟨c, hc, he⟩ := mem_applyDisable h3
      subst he
      by_cases h1 : c.name = n1
      · rw [if_pos h1] at hn3
        rw [applyToControl_name] at hn3
        exact absurd h1 hn3
      · rwa [if_neg h1]
    rcases autoSelect_fst_cases n1 (applyDisable n1 vm1 doc) with hcase | hcase
    · rw [hcase] at h
      exact hmem c2 h hne
    · rw [hcase] at h
      rcases mem_clickFE n1 false h with h3 | ⟨c, hc, hn1, he⟩
      · exact hmem c2 h3 hne
      · exfalso
        rcases he with he | he <;> subst he
        · exact hne (by simp [hn1])
        · exact hne (by simp [hn1])
  · rwa [if_neg hany] at h

theorem appliedInv_preserved {n : String} {vm : ValMap} {doc : List Control}
    (hinv : AppliedInv n vm doc) {e : String × ValMap} (hne : ¬(e.1 = n)) :
    AppliedInv n vm (applyOption doc e) := by
  intro c2 h2 hname
  have hmem : c2 ∈ doc := by
    apply mem_applyOption_ne h2
    rw [hname]
    exact fun h => hne h.symm
  exact hinv c2 hmem hname

theorem filter_applyOption_ne {n : String} {doc : List Control}
    {e : String × ValMap} (hne : ¬(e.1 = n)) :
    (applyOption doc e).filter (fun c => c.name = n) =
      doc.filter (fun c => c.name = n) := by
  rcases e with ⟨n1, vm1⟩
  simp only at hne
  rw [applyOption]
  by_cases hany : doc.any (fun c => c.name = n1) = true
  · rw [if_pos hany]
    have hne2 : n ≠ n1 := fun h => hne h.symm
    rcases autoSelect_fst_cases n1 (applyDisable n1 vm1 doc) with hcase | hcase
    · rw [hcase, filter_applyDisable hne2]
    · rw [hcase, filter_clickFE hne2, filter_applyDisable hne2]
  · rw [if_neg hany]

theorem selOK_preserved {n : String} {doc : List Control}
    (hsel : SelOK n doc) {e : String × ValMap} (hne : ¬(e.1 = n)) :
    SelOK n (applyOption doc e) := by
  unfold SelOK at hsel ⊢
  rw [filter_applyOption_ne hne]
  exact hsel

theorem foldl_applyOption_stable :
    ∀ (m : AvailMap) (doc : List Control),
      (∀ e ∈ m, AppliedInv e.1 e.2 doc ∧ SelOK e.1 doc) →
      m.foldl applyOption doc = doc := by
  intro m
  induction m with
  | nil => intro doc _; rfl
  | cons e tl ih =>
    intro doc h
    have he := h e (List.mem_cons_self _ _)
    have hstep : applyOption doc e = doc := by
      rcases e with ⟨n, vm⟩
      exact applyOption_eq_self he.1 he.2
    rw [List.foldl_cons, hstep]
    exact ih doc (fun e2 h2 => h e2 (List.mem_cons_of_mem _ h2))

theorem inv_foldl_preserved :
    ∀ (m1 : AvailMap) (doc : List Control) (n : String) (vm : ValMap),
      (∀ e ∈ m1, ¬(e.1 = n)) →
      AppliedInv n vm doc → SelOK n doc →
      AppliedInv n vm (m1.foldl applyOption doc) ∧
        SelOK n (m1.foldl applyOption doc) := by
  intro m1
  induction m1 with
  | nil =>
    intro doc n vm _ h1 h2
    exact ⟨h1, h2⟩
  | cons e tl ih =>
    intro doc n vm hk h1 h2
    rw [List.foldl_cons]
    exact ih _ n vm (fun e2 h => hk e2 (List.mem_cons_of_mem _ h))
      (appliedInv_preserved h1 (hk e (List.mem_cons_self _ _)))
      (selOK_preserved h2 (hk e (List.mem_cons_self _ _)))

theorem invariants_after :
    ∀ (m : AvailMap) (doc : List Control),
      (m.map Prod.fst).Nodup →
      ∀ e ∈ m, AppliedInv e.1 e.2 (m.foldl applyOption doc) ∧
        SelOK e.1 (m.foldl applyOption doc) := by
  intro m
  induction m with
  | nil =>
    intro doc _ e he
    simp at he
  | cons hd tl ih =>
    intro doc hnd e he
    simp only [List.map_cons, List.nodup_cons] at hnd
    rw [List.foldl_cons]
    rcases List.mem_cons.mp he with he1 | he1
    · subst he1
      have hk : ∀ e2 ∈ tl, ¬(e2.1 = e.1) := by
        intro e2 h2 hcontra
        apply hnd.1
        rw [← hcontra]
        exact List.mem_map_of_mem Prod.fst h2
      have h1 : AppliedInv e.1 e.2 (applyOption doc e) := by
        rcases e with ⟨n, vm⟩
        exact appliedInv_applyOption doc n vm
      have h2 : SelOK e.1 (applyOption doc e) := by
        rcases e with ⟨n, vm⟩
        exact selOK_applyOption doc n vm
      exact inv_foldl_preserved tl _ e.1 e.2 hk h1 h2
    · exact ih _ hnd.2 e he1

/-- C3: applyStockStatus, including its auto-selection pass, is
idempotent: for every availability decision (a map, so with distinct
option-name keys) and every starting document, applying the decision twice
leaves every control and its wrapper in exactly the state of applying it
once (disabled flag, wrapper class, aria attribute and selection alike,
since the whole control list is equal). -/
theorem applyStockStatus_idem (m : AvailMap) (doc : List Control)
    (hnd : (m.map Prod.fst).Nodup) :
    applyStockStatus m (applyStockStatus m doc) = applyStockStatus m doc := by
  unfold applyStockStatus
  exact foldl_applyOption_stable m _ (invariants_after m doc hnd)

/-- Witness for C3 at a concrete decision and document: Size S out of
stock and checked, Size M in stock; the first application disables S and
auto-clicks M, the second application changes nothing. -/
theorem applyStockStatus_idem_witness :
    (([("Size", [("S", false), ("M", true)])] : AvailMap).map Prod.fst).Nodup ∧
    applyStockStatus [("Size", [("S", false), ("M", true)])]
        (applyStockStatus [("Size", [("S", false), ("M", true)])]
          [⟨"Size", "S", true, false, some ⟨false, none, "w1"⟩⟩,
           ⟨"Size", "M", false, false, some ⟨false, none, "w2"⟩⟩]) =
      applyStockStatus [("Size", [("S", false), ("M", true)])]
        [⟨"Size", "S", true, false, some ⟨false, none, "w1"⟩⟩,
         ⟨"Size", "M", false, false, some ⟨false, none, "w2"⟩⟩] :=
  ⟨by decide, applyStockStatus_idem _ _ (by decide)⟩

theorem forall2_chain {α : Type} {R S T : α → α → Prop}
    (hcomp : ∀ a b c, R a b → S b c → T a c) :
    ∀ {l1 l2 l3 : List α}, List.Forall₂ R l1 l2 → List.Forall₂ S l2 l3 →
      List.Forall₂ T l1 l3 := by
  intro l1 l2 l3 h12
  induction h12 generalizing l3 with
  | nil =>
    intro h23
    cases h23
    exact List.Forall₂.nil
  | cons hab htl ih =>
    intro h23
    cases h23 with
    | cons hbc htl2 => exact List.Forall₂.cons (hcomp _ _ _ hab hbc) (ih htl2)

theorem applyDisable_forall2 (n : String) (vm : ValMap) (doc : List Control) :
    List.Forall₂
      (fun c c2 => c2 = if c.name = n then applyToControl vm c else c)
      doc (applyDisable n vm doc) := by
  induction doc with
  | nil => exact List.Forall₂.nil
  | cons c rest ih => exact List.Forall₂.cons rfl ih

theorem stepFrame_applyOption (doc : List Control) (e : String × ValMap) :
    List.Forall₂ (fun c c2 => c2.name = c.name ∧ c2.value = c.value ∧
      ((mapGet e.2 c.value = none ∨ ¬(c.name = e.1)) →
        c2.disabled = c.disabled ∧ c2.wrapper = c.wrapper))
      doc (applyOption doc e) := by
  rcases e with ⟨n, vm⟩
  rw [applyOption]
  by_cases hany : doc.any (fun c => c.name = n) = true
  case neg =>
    rw [if_neg hany]
    rw [List.forall₂_same]
    intro c hc
    exact ⟨rfl, rfl, fun _ => ⟨rfl, rfl⟩⟩
  case pos =>
    rw [if_pos hany]
    have hstep1 : List.Forall₂ (fun c c1 => c1.name = c.name ∧
        c1.value = c.value ∧
        ((mapGet vm c.value = none ∨ ¬(c.name = n)) →
          c1.disabled = c.disabled ∧ c1.wrapper = c.wrapper))
        doc (applyDisable n vm doc) := by
      refine (applyDisable_forall2 n vm doc).imp ?_
      intro c c1 he
      subst he
      by_cases h2 : c.name = n
      · rw [if_pos h2]
        refine ⟨applyToControl_name vm c, applyToControl_value vm c, ?_⟩
        intro hcond
        rcases hcond with hcond | hcond
        · rw [show applyToControl vm c = c by simp [applyToControl, hcond]]
          exact ⟨rfl, rfl⟩
        · exact absurd h2 hcond
      · rw [if_neg h2]
        exact ⟨rfl, rfl, fun _ => ⟨rfl, rfl⟩⟩
    rcases autoSelect_fst_cases n (applyDisable n vm doc) with hc | hc
    · rw [hc]
      exact hstep1
    · rw [hc]
      refine forall2_chain ?_ hstep1 (clickFE_forall2 n false (applyDisable n vm doc))
      rintro a b c ⟨hn1, hv1, hd1⟩ hbc
      have hb : c.name = b.name ∧ c.value = b.value ∧
          c.disabled = b.disabled ∧ c.wrapper = b.wrapper := by
        rcases hbc with hbc | hbc | hbc <;> subst hbc <;>
          exact ⟨rfl, rfl, rfl, rfl⟩
      refine ⟨hb.1.trans hn1, hb.2.1.trans hv1, ?_⟩
      intro hcond
      have h1 := hd1 hcond
      exact ⟨hb.2.2.1.trans h1.1, hb.2.2.2.trans h1.2⟩

theorem frame_foldl :
    ∀ (m : AvailMap) (doc : List Control),
      List.Forall₂ (fun c c2 => c2.name = c.name ∧ c2.value = c.value ∧
        ((∀ vm, (c.name, vm) ∈ m → mapGet vm c.value = none) →
          c2.disabled = c.disabled ∧ c2.wrapper = c.wrapper))
        doc (m.foldl applyOption doc) := by
  intro m
  induction m with
  | nil =>
    intro doc
    rw [List.foldl_nil, List.forall₂_same]
    intro c hc
    exact ⟨rfl, rfl, fun _ => ⟨rfl, rfl⟩⟩
  | cons e tl ih =>
    intro doc
    rw [List.foldl_cons]
    refine forall2_chain ?_ (stepFrame_applyOption doc e) (ih (applyOption doc e))
    rintro a b c ⟨hn1, hv1, hd1⟩ ⟨hn2, hv2, hd2⟩
    refine ⟨hn2.trans hn1, hv2.trans hv1, ?_⟩
    intro hall
    have hstep : b.disabled = a.disabled ∧ b.wrapper = a.wrapper := by
      apply hd1
      by_cases hna : a.name = e.1
      · left
        have hmem : (a.name, e.2) = e := by
          rw [hna]
        exact hall e.2 (hmem ▸ List.mem_cons_self e tl)
      · right
        exact hna
    have hstep2 : c.disabled = b.disabled ∧ c.wrapper = b.wrapper := by
      apply hd2
      intro vm hvm
      rw [hn1] at hvm
      rw [hv1]
      exact hall vm (List.mem_cons_of_mem _ hvm)
    exact ⟨hstep2.1.trans hstep.1, hstep2.2.trans hstep.2⟩

theorem forall2_getElem {α : Type} {R : α → α → Prop} :
    ∀ {l1 l2 : List α}, List.Forall₂ R l1 l2 → ∀ (i : Nat) (a : α),
      l1[i]? = some a → ∃ b, l2[i]? = some b ∧ R a b := by
  intro l1 l2 h
  induction h with
  | nil =>
    intro i a ha
    simp at ha
  | @cons x y tl1 tl2 hab htl ih =>
    intro i a ha
    cases i with
    | zero =>
      simp only [List.getElem?_cons_zero, Option.some_inj] at ha
      subst ha
      exact ⟨y, by simp, hab⟩
    | succ j =>
      simp only [List.getElem?_cons_succ] at ha
      obtain ⟨b, hb, hrb⟩ := ih j a ha
      exact ⟨b, by simpa using hb, hrb⟩

/-- C8: applyStockStatus mutates only controls whose value is a key of the
decision under their option name: a control whose value is absent from
every entry of the decision for its name keeps its disabled flag and its
whole wrapper (disabled class and attributes) at the same document
position, and the empty decision leaves the whole document unchanged. -/
theorem applyStockStatus_frame_spec :
    (∀ (m : AvailMap) (doc : List Control) (i : Nat) (c : Control),
      doc[i]? = some c →
      (∀ vm, (c.name, vm) ∈ m → mapGet vm c.value = none) →
      ∃ c2, (applyStockStatus m doc)[i]? = some c2 ∧
        c2.name = c.name ∧ c2.value = c.value ∧
        c2.disabled = c.disabled ∧ c2.wrapper = c.wrapper) ∧
    (∀ doc : List Control, applyStockStatus [] doc = doc) := by
  constructor
  · intro m doc i c hi habs
    obtain ⟨c2, h2, hn, hv, hcond⟩ := forall2_getElem (frame_foldl m doc) i c hi
    exact ⟨c2, h2, hn, hv, (hcond habs).1, (hcond habs).2⟩
  · intro doc
    rfl

/-- Witness for C8: a Color control is untouched in disabled flag and
wrapper by a decision that only covers Size. -/
theorem applyStockStatus_frame_witness :
    (([⟨"Color", "Red", false, false, some ⟨false, none, "w"⟩⟩] :
        List Control)[0]? =
      some ⟨"Color", "Red", false, false, some ⟨false, none, "w"⟩⟩) ∧
    (∀ vm, (("Color" : String), vm) ∈ ([("Size", [("S", false)])] : AvailMap) →
      mapGet vm "Red" = none) ∧
    (∃ c2, (applyStockStatus [("Size", [("S", false)])]
        [⟨"Color", "Red", false, false, some ⟨false, none, "w"⟩⟩])[0]? =
          some c2 ∧
      c2.name = "Color" ∧ c2.value = "Red" ∧ c2.disabled = false ∧
      c2.wrapper = some ⟨false, none, "w"⟩) := by
  refine ⟨rfl, ?_, ?_⟩
  · intro vm hvm
    simp at hvm
  · refine applyStockStatus_frame_spec.1 [("Size", [("S", false)])]
      [⟨"Color", "Red", false, false, some ⟨false, none, "w"⟩⟩] 0
      ⟨"Color", "Red", false, false, some ⟨false, none, "w"⟩⟩ rfl ?_
    intro vm hvm
    have hvm2 : (("Color" : String), vm) ∈
        ([("Size", [("S", false)])] : AvailMap) := hvm
    simp at hvm2

/-- C9: autoSelectFirstAvailable leaves the document and emits no event
when the first checked control of the group is enabled; when nothing is
checked or the checked control is disabled and some control of the group
is enabled, it clicks exactly once, on the first enabled control in
document order, which becomes the selected control of the group; no fetch
effect is ever emitted (the effect list is exactly one click). -/
theorem autoSelectFirstAvailable_spec :
    ∀ (n : String) (doc : List Control),
      (∀ c, (doc.filter (fun c => c.name = n)).find?
          (fun c => c.checked) = some c →
        c.disabled = false →
        autoSelectFirstAvailable n doc = (doc, [])) ∧
      (((doc.filter (fun c => c.name = n)).find? (fun c => c.checked) = none ∨
        (∃ c, (doc.filter (fun c => c.name = n)).find?
            (fun c => c.checked) = some c ∧ c.disabled = true)) →
        ∀ fe,
          (doc.filter (fun c => c.name = n)).find?
            (fun c => !c.disabled) = some fe →
          (autoSelectFirstAvailable n doc).2 = [Effect.click fe.value] ∧
          ((autoSelectFirstAvailable n doc).1.filter
              (fun c => c.name = n)).find? (fun c => c.checked) =
            some { fe with checked := true }) := by
  intro n doc
  constructor
  · intro c hfind hdis
    have hnc : needsCorrection n doc = false := by
      simp [needsCorrection, hfind, hdis]
    unfold autoSelectFirstAvailable
    rw [if_neg (by simp [hnc])]
  · intro hcond fe hfe
    have hnc : needsCorrection n doc = true := by
      unfold needsCorrection
      rcases hcond with h | ⟨c, hc, hd⟩
      · rw [h]
      · rw [hc]
        exact hd
    unfold autoSelectFirstAvailable
    rw [if_pos hnc, hfe]
    exact ⟨rfl, clickFE_first_checked doc hfe⟩

/-- Witness for C9: with Size S checked, the selection stays when S is
enabled; when S is disabled, M (first enabled) is clicked exactly once and
becomes the selection. -/
theorem autoSelectFirstAvailable_witness :
    autoSelectFirstAvailable "Size"
        [⟨"Size", "S", true, false, none⟩,
         ⟨"Size", "M", false, false, none⟩] =
      ([⟨"Size", "S", true, false, none⟩,
        ⟨"Size", "M", false, false, none⟩], []) ∧
    (autoSelectFirstAvailable "Size"
        [⟨"Size", "S", true, true, none⟩,
         ⟨"Size", "M", false, false, none⟩]).2 = [Effect.click "M"] ∧
    ((autoSelectFirstAvailable "Size"
        [⟨"Size", "S", true, true, none⟩,
         ⟨"Size", "M", false, false, none⟩]).1.filter
      (fun c => c.name = "Size")).find? (fun c => c.checked) =
      some ⟨"Size", "M", true, false, none⟩ := by
  refine ⟨?_, ?_, ?_⟩
  · exact (autoSelectFirstAvailable_spec "Size" _).1
      ⟨"Size", "S", true, false, none⟩ (by decide) rfl
  · exact ((autoSelectFirstAvailable_spec "Size" _).2
      (Or.inr ⟨⟨"Size", "S", true, true, none⟩, by decide, rfl⟩)
      ⟨"Size", "M", false, false, none⟩ (by decide)).1
  · exact ((autoSelectFirstAvailable_spec "Size" _).2
      (Or.inr ⟨⟨"Size", "S", true, true, none⟩, by decide, rfl⟩)
      ⟨"Size", "M", false, false, none⟩ (by decide)).2

/-- C5: the stock fetch always resolves with a plain record list (its
Lean type is total, mirroring the catch at the function boundary); on
every failure outcome (network error, timeout or abort, non-OK status,
malformed body) it resolves with the empty list, and on every non-failure
outcome it returns exactly what the try block produced. -/
theorem fetchCombinations_failure_spec :
    ∀ o : FetchOutcome,
      (isFailureOutcome o = true → fetchCombinations o = []) ∧
      (isFailureOutcome o = false →
        fetchTryBlock o = Except.ok (fetchCombinations o)) := by
  intro o
  cases o with
  | netError =>
    exact ⟨fun _ => rfl, fun h => by simp [isFailureOutcome] at h⟩
  | timeout =>
    exact ⟨fun _ => rfl, fun h => by simp [isFailureOutcome] at h⟩
  | httpResponse status body =>
    by_cases hs : status < 200 ∨ 300 ≤ status
    · constructor
      · intro _
        simp [fetchCombinations, fetchTryBlock, hs]
      · intro h
        simp [isFailureOutcome, hs] at h
    · constructor
      · intro h
        cases body with
        | jsonArr items =>
          exfalso
          simp [isFailureOutcome, hs] at h
        | jsonObjWithItems items =>
          exfalso
          simp [isFailureOutcome, hs] at h
        | jsonObjNoItems =>
          exfalso
          simp [isFailureOutcome, hs] at h
        | jsonNullish =>
          simp [fetchCombinations, fetchTryBlock, hs]
        | parseFail =>
          simp [fetchCombinations, fetchTryBlock, hs]
      · intro h
        cases body with
        | jsonArr items => simp [fetchCombinations, fetchTryBlock, hs]
        | jsonObjWithItems items => simp [fetchCombinations, fetchTryBlock, hs]
        | jsonObjNoItems => simp [fetchCombinations, fetchTryBlock, hs]
        | jsonNullish =>
          exfalso
          simp [isFailureOutcome, hs] at h
        | parseFail =>
          exfalso
          simp [isFailureOutcome, hs] at h

/-- Witness for C5: a 404 response yields the empty record list. -/
theorem fetchCombinations_failure_witness :
    isFailureOutcome (FetchOutcome.httpResponse 404 FetchBodyData.jsonObjNoItems) = true ∧
    fetchCombinations (FetchOutcome.httpResponse 404 FetchBodyData.jsonObjNoItems) = [] :=
  ⟨by decide, (fetchCombinations_failure_spec _).1 (by decide)⟩

/-- C6: on the sessionStorage cache of runForProduct, a put followed by a
get of the same store and product key returns exactly the stored records
while the entry age is strictly below the 60000 ms TTL; at or past the
TTL the entry behaves as absence and runForProduct falls through to a
fresh fetch. -/
theorem cache_put_get_ttl_spec :
    ∀ (c : Cache) (storeId productId : Nat) (t0 t1 : Int)
      (items : List CombinationRecord),
      (t1 - t0 < 60000 →
        cacheGet (cachePut c storeId productId t0 items) storeId productId
          t1 = some items) ∧
      (60000 ≤ t1 - t0 →
        cacheGet (cachePut c storeId productId t0 items) storeId productId
          t1 = none ∧
        runForProductAction (cachePut c storeId productId t0 items)
          storeId productId t1 = RunAction.fetchFresh) := by
  intro c sid pid t0 t1 items
  have hget : mapGet (cachePut c sid pid t0 items) (cacheKey sid pid) =
      some ⟨t0, items⟩ := by
    unfold cachePut
    simp [mapGet_mapSet]
  have hred : cacheGet (cachePut c sid pid t0 items) sid pid t1 =
      if t1 - t0 < CACHE_TTL_MS then some items else none := by
    unfold cacheGet
    rw [hget]
  constructor
  · intro h
    rw [hred, if_pos (show t1 - t0 < CACHE_TTL_MS from h)]
  · intro h
    have hnone : cacheGet (cachePut c sid pid t0 items) sid pid t1 = none := by
      rw [hred, if_neg (show ¬(t1 - t0 < CACHE_TTL_MS) by
        unfold CACHE_TTL_MS
        omega)]
    refine ⟨hnone, ?_⟩
    unfold runForProductAction
    rw [hnone]

/-- Witness for C6 at concrete times: a get at age 0 returns the records,
a get at age 70000 ms behaves as absence and forces a fetch. -/
theorem cache_put_get_ttl_witness :
    ((0 : Int) - 0 < 60000) ∧
    cacheGet (cachePut [] 111654255 800716701 0 []) 111654255 800716701 0 =
      some [] ∧
    ((60000 : Int) ≤ 70000 - 0) ∧
    cacheGet (cachePut [] 111654255 800716701 0 []) 111654255 800716701
      70000 = none ∧
    runForProductAction (cachePut [] 111654255 800716701 0 []) 111654255
      800716701 70000 = RunAction.fetchFresh := by
  refine ⟨by norm_num, ?_, by norm_num, ?_, ?_⟩
  · exact (cache_put_get_ttl_spec [] 111654255 800716701 0 0 []).1
      (by norm_num)
  · exact ((cache_put_get_ttl_spec [] 111654255 800716701 0 70000 []).2
      (by norm_num)).1
  · exact ((cache_put_get_ttl_spec [] 111654255 800716701 0 70000 []).2
      (by norm_num)).2

theorem runAttempts_all_retryable (base : Nat) :
    ∀ (outs : List AttemptOutcome) (n maxAttempts : Nat),
      (∀ o ∈ outs, retryable o = true) →
      1 ≤ n → n ≤ maxAttempts → maxAttempts - n < outs.length →
      runAttempts base outs n maxAttempts =
        ([], (List.range (maxAttempts - n)).map
          (fun r => base * 2 ^ (n - 1 + r))) := by
  intro outs
  induction outs with
  | nil =>
    intro n maxA h h1 h2 h3
    simp at h3
  | cons o rest ih =>
    intro n maxA h h1 h2 h3
    have ho := h o (List.mem_cons_self _ _)
    have hstep : runAttempts base (o :: rest) n maxA =
        (if n < maxA then
          ((runAttempts base rest (n + 1) maxA).1,
            base * 2 ^ (n - 1) :: (runAttempts base rest (n + 1) maxA).2)
        else ([], [])) := by
      cases o with
      | success items => simp [retryable] at ho
      | clientError s => simp [retryable] at ho
      | timeout => rfl
      | netError => rfl
      | serverError s => rfl
    by_cases hlt : n < maxA
    · rw [hstep, if_pos hlt]
      have hrec := ih (n + 1) maxA
        (fun o2 h2m => h o2 (List.mem_cons_of_mem _ h2m))
        (by omega) (by omega) (by simp at h3 ⊢; omega)
      rw [hrec]
      have hrange : maxA - n = (maxA - (n + 1)) + 1 := by omega
      rw [hrange, List.range_succ_eq_map, List.map_cons, List.map_map]
      simp only [Prod.mk.injEq]
      refine ⟨trivial, ?_⟩
      have hz : base * 2 ^ (n - 1 + 0) = base * 2 ^ (n - 1) := by
        norm_num
      rw [hz]
      congr 1
      apply List.map_congr_left
      intro r hr
      have he : n - 1 + Nat.succ r = n + 1 - 1 + r := by omega
      simp only [Function.comp_apply, he]
    · rw [hstep, if_neg hlt]
      have hz : maxA - n = 0 := by omega
      rw [hz]
      rfl

/-- C2 (spec-modelled): the retrying Stock Data Client yields zero
retries and an immediate empty record list on a 4xx client error, and on
persistently retryable failures (timeout, network error, 5xx) performs
exactly the configured attempt count, waiting base * 2 ^ (n - 1) before
the attempt that follows retry n (delays base, 2 base, 4 base, ...),
before yielding the empty list. -/
theorem fetchWithRetry_backoff_spec :
    ∀ (base maxAttempts s : Nat) (rest outs : List AttemptOutcome),
      fetchWithRetry base maxAttempts
        (AttemptOutcome.clientError s :: rest) = ([], []) ∧
      ((∀ o ∈ outs, retryable o = true) → 1 ≤ maxAttempts →
        maxAttempts ≤ outs.length →
        fetchWithRetry base maxAttempts outs =
          ([], (List.range (maxAttempts - 1)).map
            (fun r => base * 2 ^ r))) := by
  intro base maxA s rest outs
  constructor
  · rfl
  · intro h h1 h2
    have hrun := runAttempts_all_retryable base outs 1 maxA h (le_refl 1) h1
      (by omega)
    rw [fetchWithRetry, hrun]
    simp only [Prod.mk.injEq]
    refine ⟨trivial, ?_⟩
    apply List.map_congr_left
    intro r hr
    norm_num

/-- Witness for C2: with base 100 ms and 3 attempts, three straight
timeouts produce delays 100 and 200 then the empty list, and a 404
client error produces the empty list with no delay at all. -/
theorem fetchWithRetry_backoff_witness :
    fetchWithRetry 100 3 [AttemptOutcome.clientError 404] = ([], []) ∧
    fetchWithRetry 100 3
      [AttemptOutcome.timeout, AttemptOutcome.netError,
        AttemptOutcome.serverError 503] = ([], [100, 200]) := by
  constructor
  · exact (fetchWithRetry_backoff_spec 100 3 404 [] []).1
  · have h := (fetchWithRetry_backoff_spec 100 3 404 []
      [AttemptOutcome.timeout, AttemptOutcome.netError,
        AttemptOutcome.serverError 503]).2 (by decide) (by decide) (by decide)
    simpa using h

/-- C7 (spec-modelled): the two-tier cache put writes the memory tier
whether or not the durable-tier write fails, never throws (it always
returns Except.ok), writes both tiers when the durable tier works, and
the reconciliation that follows a put still builds the decision from the
freshly fetched records even on a durable-tier failure. -/
theorem twoTierPut_spec :
    ∀ (c : TwoTierCache) (q : Bool) (k : String) (now : Int)
      (items : List CombinationRecord),
      (∃ c2, twoTierPut c q k ⟨now, items⟩ = Except.ok c2 ∧
        mapGet c2.memory k = some ⟨now, items⟩) ∧
      (∃ c3, twoTierPut c false k ⟨now, items⟩ = Except.ok c3 ∧
        mapGet c3.durable k = some ⟨now, items⟩ ∧
        mapGet c3.memory k = some ⟨now, items⟩) ∧
      putThenReconcile c q k now items = buildAvailabilityMap items := by
  intro c q k now items
  refine ⟨?_, ?_, ?_⟩
  · cases q with
    | false =>
      exact ⟨⟨mapSet c.durable k ⟨now, items⟩, mapSet c.memory k ⟨now, items⟩⟩,
        rfl, by simp [mapGet_mapSet]⟩
    | true =>
      exact ⟨⟨c.durable, mapSet c.memory k ⟨now, items⟩⟩,
        rfl, by simp [mapGet_mapSet]⟩
  · exact ⟨⟨mapSet c.durable k ⟨now, items⟩, mapSet c.memory k ⟨now, items⟩⟩,
      rfl, by simp [mapGet_mapSet], by simp [mapGet_mapSet]⟩
  · cases q <;> rfl

end Popmerch
